import Mathlib

set_option maxRecDepth 40000

/-!
Verification of the Bassalt GLSL shader preprocessor
(`scripts/convert_shaders.py`, class `ShaderPreprocessor`).

The preprocessor is a textual rewriting pipeline over shader source:

1. remove every `#version <digits>` directive (`re.sub(r'#version\s+\d+', '', source)`);
2. expand `#moj_import <minecraft:NAME>` directives, recursively invoking the
   full pipeline on each imported file (`preprocess_moj_imports`);
3. remove `precision <word> <word>;` declarations;
4. rewrite `layout(std140) uniform <NAME>` to `layout(std140, binding=<N>) uniform <NAME>`
   where `<N>` is a post-incremented instance counter (`add_binding`);
5. rewrite `uniform sampler2D <NAME>;` into an annotation comment.

We embed the program shallowly: source text is `List Char`, the file system an
explicit map from paths to read results, mutable instance state (`included_files`,
`binding_counter`) an explicit `PState` threaded through, and the Python recursion
depth a `Nat` fuel (so a `RecursionError` of the Python program corresponds to the
embedding returning `none` for every fuel).

Each `re.sub` call is modelled as a left-to-right scan that at every position tries
the (deterministic) regex match, splices the replacement, and resumes scanning
after the matched span of the original text, exactly as Python's `re.sub` does.
-/

/-- Python `\s` on ASCII input: space, tab, newline, carriage return,
vertical tab, form feed. -/
def isWS (c : Char) : Bool :=
  c == ' ' || c == '\t' || c == '\n' || c == '\r' || c == '\x0b' || c == '\x0c'

/-- Python `\w` on ASCII input: letters, digits and underscore. -/
def isWord (c : Char) : Bool :=
  c.isAlphanum || c == '_'

/-- Match a literal character sequence at the head of `s`; on success return the
remaining text. This is the building block for the literal parts of the regexes. -/
def litP : List Char → List Char → Option (List Char)
  | [], s => some s
  | _ :: _, [] => none
  | p :: ps, c :: cs => if c = p then litP ps cs else none

/-- Regex `\s+` (greedy; the character class is disjoint from everything that can
follow it in the patterns below, so the maximal run is the unique match). -/
def wsPlus (s : List Char) : Option (List Char) :=
  match s with
  | [] => none
  | c :: _ => if isWS c then some (s.dropWhile isWS) else none

/-- Regex `\d+` (greedy maximal run of digits). -/
def digitsPlus (s : List Char) : Option (List Char) :=
  match s with
  | [] => none
  | c :: _ => if c.isDigit then some (s.dropWhile Char.isDigit) else none

/-- Regex `\w+` when the matched word is not needed. -/
def wordPlus (s : List Char) : Option (List Char) :=
  match s with
  | [] => none
  | c :: _ => if isWord c then some (s.dropWhile isWord) else none

/-- Regex capture group `(\w+)`: the maximal word run and the remaining text. -/
def wordGroup (s : List Char) : Option (List Char × List Char) :=
  match s with
  | [] => none
  | c :: _ =>
    if isWord c then some (s.takeWhile isWord, s.dropWhile isWord) else none

/-- Match of `#version\s+\d+` at the head of `s` (pass 1's regex); returns the
text after the matched span. -/
def matchVersionAt (s : List Char) : Option (List Char) :=
  (litP "#version".toList s).bind fun r1 =>
  (wsPlus r1).bind fun r2 =>
  digitsPlus r2

/-- Match of `#moj_import\s+<([^>]+)>` at the head of `s` (pass 2's regex);
returns the capture group and the text after the matched span. -/
def matchImportAt (s : List Char) : Option (List Char × List Char) :=
  (litP "#moj_import".toList s).bind fun r1 =>
  (wsPlus r1).bind fun r2 =>
  (litP "<".toList r2).bind fun r3 =>
  let tok := r3.takeWhile (fun c => !(c == '>'))
  if tok.isEmpty then none
  else
    (litP ">".toList (r3.dropWhile (fun c => !(c == '>')))).bind fun r4 =>
    some (tok, r4)

/-- Match of `precision\s+\w+\s+\w+;` at the head of `s` (pass 3's regex). -/
def matchPrecisionAt (s : List Char) : Option (List Char) :=
  (litP "precision".toList s).bind fun r1 =>
  (wsPlus r1).bind fun r2 =>
  (wordPlus r2).bind fun r3 =>
  (wsPlus r3).bind fun r4 =>
  (wordPlus r4).bind fun r5 =>
  litP ";".toList r5

/-- Match of `layout\(std140\)\s+uniform\s+(\w+)` at the head of `s`
(pass 4's regex); returns the captured block name and the remaining text. -/
def matchLayoutAt (s : List Char) : Option (List Char × List Char) :=
  (litP "layout(std140)".toList s).bind fun r1 =>
  (wsPlus r1).bind fun r2 =>
  (litP "uniform".toList r2).bind fun r3 =>
  (wsPlus r3).bind fun r4 =>
  wordGroup r4

/-- Match of `uniform\s+sampler2D\s+(\w+);` at the head of `s` (pass 5's regex);
returns the captured sampler name and the remaining text. -/
def matchSamplerAt (s : List Char) : Option (List Char × List Char) :=
  (litP "uniform".toList s).bind fun r1 =>
  (wsPlus r1).bind fun r2 =>
  (litP "sampler2D".toList r2).bind fun r3 =>
  (wsPlus r3).bind fun r4 =>
  (wordGroup r4).bind fun nr =>
  (litP ";".toList nr.2).bind fun r5 =>
  some (nr.1, r5)

/-- `re.sub(r'#version\s+\d+', '', ...)` as a fuelled left-to-right scan.
Each step consumes at least one character, so fuel `s.length` always suffices;
the fuel-exhausted branch is unreachable from `stripVersion`. -/
def stripVersionF : Nat → List Char → List Char
  | 0, s => s
  | _ + 1, [] => []
  | f + 1, c :: cs =>
    match matchVersionAt (c :: cs) with
    | some rest => stripVersionF f rest
    | none => c :: stripVersionF f cs

/-- Pass 1: remove every `#version <digits>` directive. -/
def stripVersion (s : List Char) : List Char :=
  stripVersionF s.length s

/-- `re.sub(r'precision\s+\w+\s+\w+;', '', ...)` as a fuelled scan. -/
def stripPrecisionF : Nat → List Char → List Char
  | 0, s => s
  | _ + 1, [] => []
  | f + 1, c :: cs =>
    match matchPrecisionAt (c :: cs) with
    | some rest => stripPrecisionF f rest
    | none => c :: stripPrecisionF f cs

/-- Pass 3: remove every `precision <word> <word>;` declaration. -/
def stripPrecision (s : List Char) : List Char :=
  stripPrecisionF s.length s

/-- Decimal digit characters of a natural number, low digit last
(Python `str(n)` for a non-negative int). -/
def natCharsAux : Nat → Nat → List Char
  | 0, _ => []
  | f + 1, n =>
    if n < 10 then [Char.ofNat (48 + n)]
    else natCharsAux f (n / 10) ++ [Char.ofNat (48 + n % 10)]

/-- Python `str(n)` for a natural number. -/
def natChars (n : Nat) : List Char :=
  natCharsAux (n + 1) n

/-- Pass 4 (`add_binding`): rewrite each `layout(std140) uniform <NAME>` into
`layout(std140, binding=<k>) uniform <NAME>`, post-incrementing the binding
counter `k`; returns the rewritten text and the final counter. -/
def addBindingsF : Nat → Nat → List Char → List Char × Nat
  | 0, k, s => (s, k)
  | _ + 1, k, [] => ([], k)
  | f + 1, k, c :: cs =>
    match matchLayoutAt (c :: cs) with
    | some (name, rest) =>
      let r := addBindingsF f (k + 1) rest
      ("layout(std140, binding=".toList ++ natChars k ++ ") uniform ".toList
        ++ name ++ r.1, r.2)
    | none =>
      let r := addBindingsF f k cs
      (c :: r.1, r.2)

/-- Pass 4 with the canonical fuel. -/
def addBindings (k : Nat) (s : List Char) : List Char × Nat :=
  addBindingsF s.length k s

/-- Pass 5: rewrite `uniform sampler2D <NAME>;` into
`// SAMPLER: <NAME> - requires texture+sampler binding`. -/
def samplerF : Nat → List Char → List Char
  | 0, s => s
  | _ + 1, [] => []
  | f + 1, c :: cs =>
    match matchSamplerAt (c :: cs) with
    | some (name, rest) =>
      "// SAMPLER: ".toList ++ name
        ++ " - requires texture+sampler binding".toList ++ samplerF f rest
    | none => c :: samplerF f cs

/-- Pass 5 with the canonical fuel. -/
def samplerRewrite (s : List Char) : List Char :=
  samplerF s.length s

/-- Result of probing the file system for an import path:
the path does not exist (`full_path.exists()` is false), exists but reading
raises (the `except` branch), or exists and reads this content. -/
inductive FileR where
  | absent : FileR
  | readError : List Char → FileR
  | ok : List Char → FileR
deriving DecidableEq

/-- The file-system state the preprocessor runs against. -/
def FS : Type := List Char → FileR

/-- Mutable state of one `ShaderPreprocessor` instance:
`self.included_files` and `self.binding_counter`. -/
structure PState where
  includedFiles : List (List Char)
  bindingCounter : Nat
deriving DecidableEq

/-- Python `import_path.startswith("minecraft:")`. -/
def startsMinecraft (tok : List Char) : Bool :=
  (litP "minecraft:".toList tok).isSome

/-- Python `import_path.replace("minecraft:", "")`: remove every occurrence of
the literal `minecraft:`, scanning left to right (fuelled; each step consumes
at least one character). -/
def stripMinecraftF : Nat → List Char → List Char
  | 0, s => s
  | _ + 1, [] => []
  | f + 1, c :: cs =>
    match litP "minecraft:".toList (c :: cs) with
    | some rest => stripMinecraftF f rest
    | none => c :: stripMinecraftF f cs

/-- `replace("minecraft:", "")` with the canonical fuel. -/
def stripMinecraft (s : List Char) : List Char :=
  stripMinecraftF s.length s

/-- The body of `replace_import` for one matched directive, with the recursive
entry into `self.preprocess` abstracted as `recur`.  Mirrors the source:
check the `minecraft:` scheme, resolve against the include root, consult
`included_files` first, then the file system; on a successful read, add the path
to `included_files` and recursively preprocess the content. -/
def replaceImport (recur : PState → List Char → Option (List Char × PState))
    (fs : FS) (includeDir : List Char) (st : PState) (tok : List Char) :
    Option (List Char × PState) :=
  if startsMinecraft tok then
    let fullPath := includeDir ++ '/' :: stripMinecraft tok
    if fullPath ∈ st.includedFiles then
      some ("// Already included: ".toList ++ tok ++ ['\n'], st)
    else
      match fs fullPath with
      | FileR.absent =>
        some ("// Missing import: ".toList ++ tok ++ ['\n'], st)
      | FileR.readError msg =>
        some ("// Error importing ".toList ++ tok ++ ": ".toList ++ msg ++ ['\n'],
          { st with includedFiles := fullPath :: st.includedFiles })
      | FileR.ok content =>
        (recur { st with includedFiles := fullPath :: st.includedFiles }
            content).bind fun r =>
          some ("// Import: ".toList ++ tok ++ '\n' :: (r.1 ++ ['\n']), r.2)
  else
    some ("// Unknown import: ".toList ++ tok ++ ['\n'], st)

/-- `re.sub(pattern, replace_import, source)`: scan the text left to right,
splicing each directive's replacement and threading the instance state.
`none` propagates fuel exhaustion of a nested `preprocess` call. -/
def scanImports (recur : PState → List Char → Option (List Char × PState))
    (fs : FS) (dir : List Char) :
    Nat → PState → List Char → Option (List Char × PState)
  | 0, st, s => some (s, st)
  | _ + 1, st, [] => some ([], st)
  | f + 1, st, c :: cs =>
    match matchImportAt (c :: cs) with
    | some (tok, rest) =>
      (replaceImport recur fs dir st tok).bind fun r =>
      (scanImports recur fs dir f r.2 rest).bind fun r2 =>
      some (r.1 ++ r2.1, r2.2)
    | none =>
      (scanImports recur fs dir f st cs).bind fun r =>
      some (c :: r.1, r.2)

/-- `preprocess_moj_imports`: NOTE the faithful modelling of line 38 of the
source — `self.included_files = set()` runs at the start of *every* call,
so the incoming include set is discarded here even on recursive entries. -/
def preprocessMojImports (recur : PState → List Char → Option (List Char × PState))
    (fs : FS) (dir : List Char) (st : PState) (src : List Char) :
    Option (List Char × PState) :=
  scanImports recur fs dir src.length { st with includedFiles := [] } src

/-- `ShaderPreprocessor.preprocess`: the full pipeline.  The `Nat` argument is
recursion-depth fuel: Python's call stack.  A cyclic import chain exhausts every
finite fuel (`none`), corresponding to the Python `RecursionError`. -/
def preprocess (fs : FS) (dir : List Char) :
    Nat → PState → List Char → Option (List Char × PState)
  | 0, _, _ => none
  | f + 1, st, src =>
    let s1 := stripVersion src
    (preprocessMojImports (fun st' s' => preprocess fs dir f st' s')
        fs dir st s1).bind fun r =>
      let s3 := stripPrecision r.1
      let p := addBindings r.2.bindingCounter s3
      some (samplerRewrite p.1, { r.2 with bindingCounter := p.2 })

/-- Number of occurrences of `pat` in `s` (all start positions, as a substring
count for stating the claims; not part of the source program). -/
def countSub (pat : List Char) : List Char → Nat
  | [] => if (litP pat []).isSome then 1 else 0
  | c :: cs =>
    (if (litP pat (c :: cs)).isSome then 1 else 0) + countSub pat cs

/-- `true` iff `pat` occurs in `s` as a contiguous substring (spec-side helper). -/
def containsSub (pat : List Char) : List Char → Bool
  | [] => (litP pat []).isSome
  | c :: cs => (litP pat (c :: cs)).isSome || containsSub pat cs

-- Sanity checks of the embedding on concrete inputs (kept as anonymous examples).

example : stripVersion "#version 150 core".toList = " core".toList := rfl

example : stripVersion "#ver#version 1sion 2".toList = "#version 2".toList := rfl

example : stripPrecision "precision lowp float; x".toList = " x".toList := rfl

example : addBindings 0 "layout(std140) uniform Foo A".toList
    = ("layout(std140, binding=0) uniform Foo A".toList, 1) := rfl

example : samplerRewrite "uniform sampler2D tex0;".toList
    = "// SAMPLER: tex0 - requires texture+sampler binding".toList := rfl

example :
    preprocess (fun _ => FileR.absent) "inc".toList 2
      ⟨[], 0⟩ "void f();".toList = some ("void f();".toList, ⟨[], 0⟩) := rfl

example :
    preprocess (fun _ => FileR.absent) "inc".toList 2
      ⟨[], 0⟩ "#moj_import <minecraft:x>".toList
    = some ("// Missing import: minecraft:x\n".toList, ⟨[], 0⟩) := rfl

/-! ### Fixtures: small file systems used by the concrete claims -/

/-- Empty include root: every path is missing. -/
def fsEmpty : FS := fun _ => FileR.absent

/-- Cyclic import pair: `a` imports `b` and `b` imports `a`. -/
def srcCycA : List Char := "#moj_import <minecraft:b>\n".toList

/-- Source of file `b` of the cyclic pair. -/
def srcCycB : List Char := "#moj_import <minecraft:a>\n".toList

/-- File system with the cyclic pair under include root `inc`. -/
def fsCyc : FS := fun p =>
  if p = "inc/a".toList then FileR.ok srcCycA
  else if p = "inc/b".toList then FileR.ok srcCycB
  else FileR.absent

/-- Diamond import: `a` imports `b` and `c`, and both `b` and `c` import `d`. -/
def fsDia : FS := fun p =>
  if p = "inc/b".toList then FileR.ok "#moj_import <minecraft:d>\n".toList
  else if p = "inc/c".toList then FileR.ok "#moj_import <minecraft:d>\n".toList
  else if p = "inc/d".toList then FileR.ok "float DBODY;\n".toList
  else FileR.absent

/-- Top file of the diamond: imports `b` then `c`. -/
def srcDiaA : List Char :=
  "#moj_import <minecraft:b>\n#moj_import <minecraft:c>\n".toList

/-- Include root holding one file `m` with a uniform block, for the
binding-order claim. -/
def fsBind : FS := fun p =>
  if p = "inc/m".toList then FileR.ok "layout(std140) uniform Bar\n".toList
  else FileR.absent

/-- Source declaring uniform block `Foo` before an import that inserts
uniform block `Bar`. -/
def srcBind : List Char :=
  "layout(std140) uniform Foo\n#moj_import <minecraft:m>\n".toList

/-! ### Claim theorems on concrete inputs -/

/-- C3: the claim says the include set is reset **only** at the start of each
top-level `process` call and that recursive expansions share the same live set,
so that no resolved path is expanded twice in one top-level invocation.
The code instead resets `self.included_files` at the start of *every*
`preprocess_moj_imports` call — recursive ones included — so the result of
`preprocess` is entirely independent of the incoming include set, and (as the
diamond evaluation for C2 shows) a resolved path *can* be expanded twice within
one top-level invocation.  This theorem exhibits the reset-on-every-call
behaviour: the incoming `includedFiles` component never influences the result,
even though a genuinely shared, top-level-only set would have to. -/
theorem c3_includeSet_reset_on_every_call (fs : FS) (dir : List Char) (f : Nat)
    (l₁ l₂ : List (List Char)) (k : Nat) (src : List Char) :
    preprocess fs dir f ⟨l₁, k⟩ src = preprocess fs dir f ⟨l₂, k⟩ src := by
  cases f <;> rfl

/-- C2: in the diamond configuration (`a` imports `b` and `c`; both `b` and
`c` import `d`), the fully expanded output of `preprocess` on `a`'s source contains
`d`'s body **twice**, not once: the include-set reset at the start of every
recursive `preprocess_moj_imports` call (source line 38) erases the record that
`d` was already expanded, so the second reference to `d` is expanded again
instead of being replaced by an "already included" placeholder. -/
theorem c2_diamond_content_twice :
    (preprocess fsDia "inc".toList 10 ⟨[], 0⟩ srcDiaA).map
      (fun r => countSub "DBODY".toList r.1) = some 2 := by
  rfl

/-- C4 counterexample: for the input declaring `layout(std140) uniform Foo`
before an import that inserts `layout(std140) uniform Bar`, a fresh instance
does **not** give Foo binding 0: the expanded output contains
`layout(std140, binding=1) uniform Foo` and no `binding=0) uniform Foo`. -/
theorem c4_counterexample :
    (preprocess fsBind "inc".toList 3 ⟨[], 0⟩ srcBind).map
      (fun r => (countSub "binding=0) uniform Foo".toList r.1,
                 countSub "layout(std140, binding=1) uniform Foo".toList r.1))
    = some (0, 1) := by
  rfl

/-- C4 (amended): binding indices are assigned depth-first, not in textual
order of the fully expanded output: each import is fully preprocessed — its
uniform blocks rewritten and numbered — *before* being spliced, and only then
does the importer's own binding pass run on the remaining unrewritten blocks.
So in the Foo-then-import-Bar input the imported `Bar` receives binding 0 and
the importer's own `Foo`, though textually first, receives binding 1. -/
theorem c4_bindings_depth_first :
    (preprocess fsBind "inc".toList 3 ⟨[], 0⟩ srcBind).map
      (fun r => (countSub "layout(std140, binding=0) uniform Bar".toList r.1,
                 countSub "layout(std140, binding=1) uniform Foo".toList r.1,
                 r.2.bindingCounter))
    = some (1, 1, 2) := by
  rfl

/-- C5 counterexample: the output of `preprocess` is *not* free of `#version`
for every input: the regex `#version\s+\d+` needs whitespace and digits after
the keyword, so a bare `#version` (no version number) passes through all five
passes unchanged and the output contains one `#version` occurrence. -/
theorem c5_counterexample :
    (preprocess fsEmpty "inc".toList 2 ⟨[], 0⟩ "#version".toList).map
      (fun r => countSub "#version".toList r.1) = some 1 := by
  rfl

/-- C9 counterexample: re-running `preprocess` on its own output is *not* the
identity even when the output contains no remaining `#moj_import` directive.
Removing a `#version <digits>` match can splice surrounding text into a *new*
`#version <digits>` directive that survives the single-pass `re.sub`: input
`#ver#version 1sion 2` preprocesses to `#version 2` (no `#moj_import` match
anywhere in it), and a second run strips that to the empty string. -/
theorem c9_counterexample :
    preprocess fsEmpty "inc".toList 2 ⟨[], 0⟩ "#ver#version 1sion 2".toList
      = some ("#version 2".toList, ⟨[], 0⟩)
    ∧ (matchImportAt "#version 2".toList = none
        ∧ containsSub "#moj_import".toList "#version 2".toList = false)
    ∧ preprocess fsEmpty "inc".toList 2 ⟨[], 0⟩ "#version 2".toList
        = some ([], ⟨[], 0⟩)
    ∧ "#version 2".toList ≠ ([] : List Char) := by
  exact ⟨rfl, ⟨rfl, rfl⟩, rfl, by decide⟩

/-- C10: the version-strip pass removes exactly the `#version <digits>` span:
on `#version 150 core` the directive and its integer disappear while the
trailing profile token ` core` (leading separator included) remains, for any
file system, include root, fuel and starting state. -/
theorem c10_version_strip_keeps_profile (fs : FS) (dir : List Char) (f : Nat)
    (st : PState) :
    preprocess fs dir (f + 1) st "#version 150 core".toList
      = some (" core".toList, ⟨[], st.bindingCounter⟩) := by
  rfl

/-! ### Structural lemmas about the matchers -/

/-- A successful literal match leaves a suffix of the scanned text. -/
theorem litP_suffix : ∀ {p s r : List Char}, litP p s = some r → r <:+ s := by
  intro p
  induction p with
  | nil =>
    intro s r h
    simp only [litP, Option.some.injEq] at h
    exact h ▸ List.suffix_refl s
  | cons a ps ih =>
    intro s r h
    cases s with
    | nil => exact absurd h (by simp [litP])
    | cons c cs =>
      simp only [litP] at h
      split at h
      · exact (ih h).trans (List.suffix_cons c cs)
      · exact absurd h (by simp)

/-- `wsPlus` consumes at least one character and leaves a suffix. -/
theorem wsPlus_suffix {s r : List Char} (h : wsPlus s = some r) :
    r <:+ s ∧ r.length < s.length := by
  cases s with
  | nil => exact absurd h (by simp [wsPlus])
  | cons c cs =>
    simp only [wsPlus] at h
    split at h
    · cases h
      refine ⟨List.dropWhile_suffix _, ?_⟩
      rw [List.dropWhile_cons, if_pos (by assumption)]
      exact Nat.lt_succ_of_le (List.dropWhile_suffix (p := isWS) (l := cs)).length_le
    · exact absurd h (by simp)

/-- `digitsPlus` consumes at least one character and leaves a suffix. -/
theorem digitsPlus_suffix {s r : List Char} (h : digitsPlus s = some r) :
    r <:+ s ∧ r.length < s.length := by
  cases s with
  | nil => exact absurd h (by simp [digitsPlus])
  | cons c cs =>
    simp only [digitsPlus] at h
    split at h
    · cases h
      refine ⟨List.dropWhile_suffix _, ?_⟩
      rw [List.dropWhile_cons, if_pos (by assumption)]
      exact Nat.lt_succ_of_le
        (List.dropWhile_suffix (p := Char.isDigit) (l := cs)).length_le
    · exact absurd h (by simp)

/-- `wordPlus` consumes at least one character and leaves a suffix. -/
theorem wordPlus_suffix {s r : List Char} (h : wordPlus s = some r) :
    r <:+ s ∧ r.length < s.length := by
  cases s with
  | nil => exact absurd h (by simp [wordPlus])
  | cons c cs =>
    simp only [wordPlus] at h
    split at h
    · cases h
      refine ⟨List.dropWhile_suffix _, ?_⟩
      rw [List.dropWhile_cons, if_pos (by assumption)]
      exact Nat.lt_succ_of_le (List.dropWhile_suffix (p := isWord) (l := cs)).length_le
    · exact absurd h (by simp)

/-- `wordGroup` leaves a suffix, consumes at least one character, and captures
only word characters. -/
theorem wordGroup_spec {s : List Char} {nr : List Char × List Char}
    (h : wordGroup s = some nr) :
    nr.2 <:+ s ∧ nr.2.length < s.length ∧ ∀ c ∈ nr.1, isWord c = true := by
  cases s with
  | nil => exact absurd h (by simp [wordGroup])
  | cons c cs =>
    simp only [wordGroup] at h
    split at h
    · cases h
      refine ⟨List.dropWhile_suffix _, ?_, fun c hc => List.mem_takeWhile_imp hc⟩
      rw [List.dropWhile_cons, if_pos (by assumption)]
      exact Nat.lt_succ_of_le (List.dropWhile_suffix (p := isWord) (l := cs)).length_le
    · exact absurd h (by simp)

/-- The span consumed by a `#version\s+\d+` match is nonempty, and the
remainder is a suffix of the scanned text. -/
theorem matchVersionAt_suffix {s r : List Char} (h : matchVersionAt s = some r) :
    r <:+ s ∧ r.length < s.length := by
  simp only [matchVersionAt, Option.bind_eq_some] at h
  obtain ⟨r1, h1, r2, h2, h3⟩ := h
  have s1 := litP_suffix h1
  have s2 := wsPlus_suffix h2
  have s3 := digitsPlus_suffix h3
  exact ⟨(s3.1.trans s2.1).trans s1,
    lt_of_lt_of_le (s3.2.trans s2.2) s1.length_le⟩

/-- The remainder of a `precision\s+\w+\s+\w+;` match is a proper suffix. -/
theorem matchPrecisionAt_suffix {s r : List Char}
    (h : matchPrecisionAt s = some r) : r <:+ s ∧ r.length < s.length := by
  simp only [matchPrecisionAt, Option.bind_eq_some] at h
  obtain ⟨r1, h1, r2, h2, r3, h3, r4, h4, r5, h5, h6⟩ := h
  have s1 := litP_suffix h1
  have s2 := wsPlus_suffix h2
  have s3 := wordPlus_suffix h3
  have s4 := wsPlus_suffix h4
  have s5 := wordPlus_suffix h5
  have s6 := litP_suffix h6
  refine ⟨((((s6.trans s5.1).trans s4.1).trans s3.1).trans s2.1).trans s1, ?_⟩
  calc r.length ≤ r5.length := s6.length_le
    _ < r2.length := lt_of_lt_of_le (s5.2.trans s4.2) s3.1.length_le
    _ < r1.length := s2.2
    _ ≤ s.length := s1.length_le

/-- The remainder of a `layout(std140)\s+uniform\s+(\w+)` match is a proper
suffix, and the captured name consists of word characters. -/
theorem matchLayoutAt_spec {s : List Char} {nr : List Char × List Char}
    (h : matchLayoutAt s = some nr) :
    nr.2 <:+ s ∧ nr.2.length < s.length ∧ ∀ c ∈ nr.1, isWord c = true := by
  simp only [matchLayoutAt, Option.bind_eq_some] at h
  obtain ⟨r1, h1, r2, h2, r3, h3, r4, h4, h5⟩ := h
  have s1 := litP_suffix h1
  have s2 := wsPlus_suffix h2
  have s3 := litP_suffix h3
  have s4 := wsPlus_suffix h4
  have s5 := wordGroup_spec h5
  refine ⟨(((s5.1.trans s4.1).trans s3).trans s2.1).trans s1, ?_, s5.2.2⟩
  calc nr.2.length < r3.length := lt_of_lt_of_le s5.2.1 s4.1.length_le
    _ < r1.length := lt_of_le_of_lt s3.length_le s2.2
    _ ≤ s.length := s1.length_le

/-- The remainder of a `uniform\s+sampler2D\s+(\w+);` match is a proper
suffix, and the captured name consists of word characters. -/
theorem matchSamplerAt_spec {s : List Char} {nr : List Char × List Char}
    (h : matchSamplerAt s = some nr) :
    nr.2 <:+ s ∧ nr.2.length < s.length ∧ ∀ c ∈ nr.1, isWord c = true := by
  simp only [matchSamplerAt, Option.bind_eq_some] at h
  obtain ⟨r1, h1, r2, h2, r3, h3, r4, h4, nr5, h5, r6, h6, h7⟩ := h
  cases h7
  have s1 := litP_suffix h1
  have s2 := wsPlus_suffix h2
  have s3 := litP_suffix h3
  have s4 := wsPlus_suffix h4
  have s5 := wordGroup_spec h5
  have s6 := litP_suffix h6
  refine ⟨((((s6.trans s5.1).trans s4.1).trans s3).trans s2.1).trans s1, ?_, s5.2.2⟩
  calc r6.length ≤ nr5.2.length := s6.length_le
    _ < r3.length := lt_of_lt_of_le s5.2.1 s4.1.length_le
    _ < r1.length := lt_of_le_of_lt s3.length_le s2.2
    _ ≤ s.length := s1.length_le

/-- The remainder of an import-directive match is a proper suffix. -/
theorem matchImportAt_suffix {s : List Char} {tr : List Char × List Char}
    (h : matchImportAt s = some tr) : tr.2 <:+ s ∧ tr.2.length < s.length := by
  simp only [matchImportAt, Option.bind_eq_some] at h
  obtain ⟨r1, h1, r2, h2, r3, h3, h4⟩ := h
  split at h4
  · exact absurd h4 (by simp)
  · simp only [Option.bind_eq_some] at h4
    obtain ⟨r4, h5, h6⟩ := h4
    cases h6
    have s1 := litP_suffix h1
    have s2 := wsPlus_suffix h2
    have s3 := litP_suffix h3
    have s5 := litP_suffix h5
    have sdw : List.dropWhile (fun c => !(c == '>')) r3 <:+ r3 :=
      List.dropWhile_suffix _
    refine ⟨(((s5.trans sdw).trans s3).trans s2.1).trans s1, ?_⟩
    calc r4.length ≤ r3.length := s5.length_le.trans sdw.length_le
      _ ≤ r2.length := s3.length_le
      _ < r1.length := s2.2
      _ ≤ s.length := s1.length_le

/-! ### Match-existence predicates over a whole text -/

/-- `scanAny test s` is true iff `test` succeeds at some suffix of `s`
(i.e. the corresponding regex matches somewhere in `s`). -/
def scanAny (test : List Char → Bool) : List Char → Bool
  | [] => test []
  | c :: cs => test (c :: cs) || scanAny test cs

/-- `#version\s+\d+` matches somewhere in `s`. -/
def hasVersionMatch (s : List Char) : Bool :=
  scanAny (fun t => (matchVersionAt t).isSome) s

/-- `#moj_import\s+<([^>]+)>` matches somewhere in `s`. -/
def hasImportMatch (s : List Char) : Bool :=
  scanAny (fun t => (matchImportAt t).isSome) s

/-- `precision\s+\w+\s+\w+;` matches somewhere in `s`. -/
def hasPrecisionMatch (s : List Char) : Bool :=
  scanAny (fun t => (matchPrecisionAt t).isSome) s

/-- `layout\(std140\)\s+uniform\s+(\w+)` matches somewhere in `s`. -/
def hasLayoutMatch (s : List Char) : Bool :=
  scanAny (fun t => (matchLayoutAt t).isSome) s

/-- `uniform\s+sampler2D\s+(\w+);` matches somewhere in `s`. -/
def hasSamplerMatch (s : List Char) : Bool :=
  scanAny (fun t => (matchSamplerAt t).isSome) s

/-- If the test succeeds at some suffix, the scan reports true. -/
theorem scanAny_suffix_true {test : List Char → Bool} :
    ∀ {s t : List Char}, t <:+ s → test t = true → scanAny test s = true := by
  intro s
  induction s with
  | nil =>
    intro t hsuf ht
    rw [List.suffix_nil.mp hsuf] at ht
    simpa [scanAny] using ht
  | cons c cs ih =>
    intro t hsuf ht
    rcases List.suffix_cons_iff.mp hsuf with h | h
    · subst h
      simp [scanAny, ht]
    · simp [scanAny, ih h ht]

/-- If the scan reports false, the test fails at every suffix. -/
theorem scanAny_false {test : List Char → Bool} {s : List Char}
    (h : scanAny test s = false) {t : List Char} (hsuf : t <:+ s) :
    test t = false := by
  cases htest : test t with
  | false => rfl
  | true => rw [scanAny_suffix_true hsuf htest] at h; exact absurd h (by simp)

/-- If the test fails at every suffix, the scan reports false. -/
theorem scanAny_false_of {test : List Char → Bool} :
    ∀ {s : List Char}, (∀ t, t <:+ s → test t = false) → scanAny test s = false := by
  intro s
  induction s with
  | nil =>
    intro H
    simpa [scanAny] using H [] (List.suffix_refl _)
  | cons c cs ih =>
    intro H
    simp only [scanAny, Bool.or_eq_false_iff]
    exact ⟨H _ (List.suffix_refl _),
      ih fun t ht => H t (ht.trans (List.suffix_cons c cs))⟩

/-! ### The passes are the identity on match-free text -/

/-- Pass 1 leaves text without a `#version <digits>` match unchanged. -/
theorem stripVersionF_id :
    ∀ (f : Nat) {s : List Char}, hasVersionMatch s = false →
      stripVersionF f s = s := by
  intro f
  induction f with
  | zero => intro s _; rfl
  | succ f ih =>
    intro s h
    cases s with
    | nil => rfl
    | cons c cs =>
      have h0 := scanAny_false h (List.suffix_refl (c :: cs))
      have hcs : hasVersionMatch cs = false :=
        scanAny_false_of fun t ht => scanAny_false h (ht.trans (List.suffix_cons c cs))
      simp only [stripVersionF]
      cases hm : matchVersionAt (c :: cs) with
      | some r => rw [hm] at h0; exact absurd h0 (by simp)
      | none => rw [ih hcs]

/-- Pass 3 leaves text without a `precision` match unchanged. -/
theorem stripPrecisionF_id :
    ∀ (f : Nat) {s : List Char}, hasPrecisionMatch s = false →
      stripPrecisionF f s = s := by
  intro f
  induction f with
  | zero => intro s _; rfl
  | succ f ih =>
    intro s h
    cases s with
    | nil => rfl
    | cons c cs =>
      have h0 := scanAny_false h (List.suffix_refl (c :: cs))
      have hcs : hasPrecisionMatch cs = false :=
        scanAny_false_of fun t ht => scanAny_false h (ht.trans (List.suffix_cons c cs))
      simp only [stripPrecisionF]
      cases hm : matchPrecisionAt (c :: cs) with
      | some r => rw [hm] at h0; exact absurd h0 (by simp)
      | none => rw [ih hcs]

/-- Pass 4 leaves text without a `layout(std140) uniform` match unchanged and
does not advance the binding counter. -/
theorem addBindingsF_id :
    ∀ (f : Nat) (k : Nat) {s : List Char}, hasLayoutMatch s = false →
      addBindingsF f k s = (s, k) := by
  intro f
  induction f with
  | zero => intro k s _; rfl
  | succ f ih =>
    intro k s h
    cases s with
    | nil => rfl
    | cons c cs =>
      have h0 := scanAny_false h (List.suffix_refl (c :: cs))
      have hcs : hasLayoutMatch cs = false :=
        scanAny_false_of fun t ht => scanAny_false h (ht.trans (List.suffix_cons c cs))
      simp only [addBindingsF]
      cases hm : matchLayoutAt (c :: cs) with
      | some r => rw [hm] at h0; exact absurd h0 (by simp)
      | none => rw [ih k hcs]

/-- Pass 5 leaves text without a sampler match unchanged. -/
theorem samplerF_id :
    ∀ (f : Nat) {s : List Char}, hasSamplerMatch s = false →
      samplerF f s = s := by
  intro f
  induction f with
  | zero => intro s _; rfl
  | succ f ih =>
    intro s h
    cases s with
    | nil => rfl
    | cons c cs =>
      have h0 := scanAny_false h (List.suffix_refl (c :: cs))
      have hcs : hasSamplerMatch cs = false :=
        scanAny_false_of fun t ht => scanAny_false h (ht.trans (List.suffix_cons c cs))
      simp only [samplerF]
      cases hm : matchSamplerAt (c :: cs) with
      | some r => rw [hm] at h0; exact absurd h0 (by simp)
      | none => rw [ih hcs]

/-- Pass 2 leaves text without an import-directive match unchanged, with the
state untouched (for any recursion and any fuel). -/
theorem scanImports_id
    (recur : PState → List Char → Option (List Char × PState)) (fs : FS)
    (dir : List Char) :
    ∀ (f : Nat) (st : PState) {s : List Char}, hasImportMatch s = false →
      scanImports recur fs dir f st s = some (s, st) := by
  intro f
  induction f with
  | zero => intro st s _; rfl
  | succ f ih =>
    intro st s h
    cases s with
    | nil => rfl
    | cons c cs =>
      have h0 := scanAny_false h (List.suffix_refl (c :: cs))
      have hcs : hasImportMatch cs = false :=
        scanAny_false_of fun t ht => scanAny_false h (ht.trans (List.suffix_cons c cs))
      simp only [scanImports]
      cases hm : matchImportAt (c :: cs) with
      | some r => rw [hm] at h0; exact absurd h0 (by simp)
      | none => rw [ih st hcs]; rfl

/-- Identity of the whole pipeline on text in which none of the five regexes
matches: the text comes back unchanged, the include set ends up empty (it is
reset by `preprocess_moj_imports`), and the binding counter does not advance. -/
theorem preprocess_id_core (fs : FS) (dir : List Char) (f : Nat) (st : PState)
    {s : List Char}
    (hV : hasVersionMatch s = false) (hI : hasImportMatch s = false)
    (hP : hasPrecisionMatch s = false) (hL : hasLayoutMatch s = false)
    (hS : hasSamplerMatch s = false) :
    preprocess fs dir (f + 1) st s = some (s, ⟨[], st.bindingCounter⟩) := by
  have e1 : stripVersion s = s := stripVersionF_id _ hV
  simp only [preprocess, preprocessMojImports, e1]
  rw [scanImports_id _ fs dir _ _ hI, Option.some_bind]
  have e2 : stripPrecision s = s := stripPrecisionF_id _ hP
  simp only [e2, addBindings]
  rw [addBindingsF_id _ _ hL]
  simp only [samplerRewrite, samplerF_id _ hS]

/-! ### Bridging substring absence to match absence -/

/-- A literal hit at any suffix means the literal occurs as a substring. -/
theorem containsSub_of_suffix_hit {pat : List Char} :
    ∀ {s t : List Char}, t <:+ s → (litP pat t).isSome = true →
      containsSub pat s = true := by
  intro s
  induction s with
  | nil =>
    intro t hsuf hl
    rw [List.suffix_nil.mp hsuf] at hl
    simpa [containsSub] using hl
  | cons c cs ih =>
    intro t hsuf hl
    rcases List.suffix_cons_iff.mp hsuf with h | h
    · subst h
      simp [containsSub, hl]
    · simp [containsSub, ih h hl]

/-- If `pat` does not occur as a substring of `s`, the literal match fails at
every suffix of `s`. -/
theorem litP_none_of_not_containsSub {pat s t : List Char}
    (h : containsSub pat s = false) (hsuf : t <:+ s) : litP pat t = none := by
  cases hl : litP pat t with
  | none => rfl
  | some r =>
    rw [containsSub_of_suffix_hit hsuf (by rw [hl]; rfl)] at h
    exact absurd h (by simp)

/-- No `#version` substring means no `#version\s+\d+` match anywhere. -/
theorem hasVersionMatch_false {s : List Char}
    (h : containsSub "#version".toList s = false) : hasVersionMatch s = false :=
  scanAny_false_of fun t ht => by
    simp only [matchVersionAt, litP_none_of_not_containsSub h ht,
      Option.none_bind, Option.isSome_none]

/-- No `#moj_import` substring means no import-directive match anywhere. -/
theorem hasImportMatch_false {s : List Char}
    (h : containsSub "#moj_import".toList s = false) : hasImportMatch s = false :=
  scanAny_false_of fun t ht => by
    simp only [matchImportAt, litP_none_of_not_containsSub h ht,
      Option.none_bind, Option.isSome_none]

/-- No `precision` substring means no precision-declaration match anywhere. -/
theorem hasPrecisionMatch_false {s : List Char}
    (h : containsSub "precision".toList s = false) : hasPrecisionMatch s = false :=
  scanAny_false_of fun t ht => by
    simp only [matchPrecisionAt, litP_none_of_not_containsSub h ht,
      Option.none_bind, Option.isSome_none]

/-- No `layout(std140)` substring means no uniform-block match anywhere. -/
theorem hasLayoutMatch_false {s : List Char}
    (h : containsSub "layout(std140)".toList s = false) : hasLayoutMatch s = false :=
  scanAny_false_of fun t ht => by
    simp only [matchLayoutAt, litP_none_of_not_containsSub h ht,
      Option.none_bind, Option.isSome_none]

/-- No `sampler2D` substring means no sampler-declaration match anywhere
(the literal sits in the middle of the regex, so we walk the first two
components to reach a suffix where it would have to start). -/
theorem hasSamplerMatch_false {s : List Char}
    (h : containsSub "sampler2D".toList s = false) : hasSamplerMatch s = false :=
  scanAny_false_of fun t ht => by
    cases h1 : litP "uniform".toList t with
    | none =>
      simp only [matchSamplerAt, h1, Option.none_bind, Option.isSome_none]
    | some r1 =>
      cases h2 : wsPlus r1 with
      | none =>
        simp only [matchSamplerAt, h1, Option.some_bind, h2,
          Option.none_bind, Option.isSome_none]
      | some r2 =>
        have hsuf2 : r2 <:+ s :=
          ((wsPlus_suffix h2).1.trans (litP_suffix h1)).trans ht
        simp only [matchSamplerAt, h1, h2, Option.some_bind,
          litP_none_of_not_containsSub h hsuf2,
          Option.none_bind, Option.isSome_none]

/-- C8: on a source containing none of the five directive tokens
(`#moj_import`, `#version`, `precision`, `layout(std140)`, `sampler2D` — as
substrings), `preprocess` is the identity on the text: the input string comes
back unchanged (and the binding counter does not advance; the include set is
the freshly reset empty set). -/
theorem c8_identity_on_token_free_input (fs : FS) (dir : List Char) (f : Nat)
    (st : PState) (s : List Char)
    (h1 : containsSub "#moj_import".toList s = false)
    (h2 : containsSub "#version".toList s = false)
    (h3 : containsSub "precision".toList s = false)
    (h4 : containsSub "layout(std140)".toList s = false)
    (h5 : containsSub "sampler2D".toList s = false) :
    preprocess fs dir (f + 1) st s = some (s, ⟨[], st.bindingCounter⟩) :=
  preprocess_id_core fs dir f st (hasVersionMatch_false h2)
    (hasImportMatch_false h1) (hasPrecisionMatch_false h3)
    (hasLayoutMatch_false h4) (hasSamplerMatch_false h5)

/-- Witness for C8 at a concrete token-free shader snippet. -/
theorem c8_witness :
    preprocess fsEmpty "inc".toList 1 ⟨[], 0⟩ "void f(x); in vec4 a;".toList
      = some ("void f(x); in vec4 a;".toList, ⟨[], 0⟩) :=
  c8_identity_on_token_free_input fsEmpty "inc".toList 0 ⟨[], 0⟩
    "void f(x); in vec4 a;".toList rfl rfl rfl rfl rfl

/-- C9 (amended): re-running `preprocess` on its own output returns the output
unchanged — and in particular already-rewritten `layout(std140, binding=N)`
blocks are not rematched and the binding counter does not advance — provided
none of the five regexes still matches in that output.  The claim conditioned
this only on the absence of remaining `#moj_import` directives; as
`c9_counterexample` shows, a first run can (via splicing of removed spans)
leave behind a live `#version`/`precision`/`layout(std140) uniform`/sampler
match, in which case a second run does change the text, so the amended
hypotheses on the other four patterns are necessary. -/
theorem c9_idempotent_on_match_free_output (fs : FS) (dir : List Char)
    (f g : Nat) (st st' : PState) (s out : List Char)
    (_hrun : preprocess fs dir f st s = some (out, st'))
    (hI : hasImportMatch out = false)
    (hV : hasVersionMatch out = false)
    (hP : hasPrecisionMatch out = false)
    (hL : hasLayoutMatch out = false)
    (hS : hasSamplerMatch out = false) :
    preprocess fs dir (g + 1) st' out = some (out, ⟨[], st'.bindingCounter⟩) :=
  preprocess_id_core fs dir g st' hV hI hP hL hS

/-- Witness for C9: one full run on a shader exercising all passes, then the
re-run on its output, which is unchanged. -/
theorem c9_witness :
    preprocess fsEmpty "inc".toList 2 ⟨[], 1⟩
      "\n\nlayout(std140, binding=0) uniform F\n// SAMPLER: t - requires texture+sampler binding\nvoid f();".toList
      = some ("\n\nlayout(std140, binding=0) uniform F\n// SAMPLER: t - requires texture+sampler binding\nvoid f();".toList,
          ⟨[], 1⟩) :=
  c9_idempotent_on_match_free_output fsEmpty "inc".toList 2 1 ⟨[], 0⟩ ⟨[], 1⟩
    "#version 1\nprecision lowp float;\nlayout(std140) uniform F\nuniform sampler2D t;\nvoid f();".toList
    "\n\nlayout(std140, binding=0) uniform F\n// SAMPLER: t - requires texture+sampler binding\nvoid f();".toList
    rfl rfl rfl rfl rfl rfl

/-! ### No `#` survives when every `#` heads a version directive (for C5) -/

/-- Every occurrence of `#` in `s` begins a `#version\s+\d+` match.
This is the input discipline under which pass 1 provably removes every
`#version` (a well-formed shader's only `#` tokens are its directives). -/
def hashOk : List Char → Bool
  | [] => true
  | c :: cs => (c != '#' || (matchVersionAt (c :: cs)).isSome) && hashOk cs

/-- `hashOk` is inherited by suffixes. -/
theorem hashOk_suffix : ∀ {s t : List Char}, hashOk s = true → t <:+ s →
    hashOk t = true := by
  intro s
  induction s with
  | nil =>
    intro t h hsuf
    rw [List.suffix_nil.mp hsuf]
    rfl
  | cons c cs ih =>
    intro t h hsuf
    simp only [hashOk, Bool.and_eq_true] at h
    rcases List.suffix_cons_iff.mp hsuf with h' | h'
    · subst h'
      simp [hashOk, h.1, h.2]
    · exact ih h.2 h'

/-- With enough fuel (one unit per character suffices), the version strip
removes every `#` from a `hashOk` text: at a `#` a version match fires and the
whole span is dropped; all other emitted characters are not `#`. -/
theorem stripVersionF_no_hash :
    ∀ (f : Nat) {s : List Char}, hashOk s = true → s.length ≤ f →
      '#' ∉ stripVersionF f s := by
  intro f
  induction f with
  | zero =>
    intro s _ hlen
    rw [List.eq_nil_of_length_eq_zero (Nat.le_zero.mp hlen)]
    simp [stripVersionF]
  | succ f ih =>
    intro s hok hlen
    cases s with
    | nil => simp [stripVersionF]
    | cons c cs =>
      simp only [stripVersionF]
      cases hm : matchVersionAt (c :: cs) with
      | some rest =>
        have hsp := matchVersionAt_suffix hm
        exact ih (hashOk_suffix hok hsp.1)
          (Nat.le_of_lt_succ (lt_of_lt_of_le hsp.2 hlen))
      | none =>
        have h1 : (c != '#' || (matchVersionAt (c :: cs)).isSome) = true := by
          have := hok
          simp only [hashOk, Bool.and_eq_true] at this
          exact this.1
        have hcne : c ≠ '#' := by
          rw [hm] at h1
          simp only [Option.isSome_none, Bool.or_false, bne_iff_ne] at h1
          exact h1
        have hcs : hashOk cs = true := by
          have := hok
          simp only [hashOk, Bool.and_eq_true] at this
          exact this.2
        intro hmem
        rcases List.mem_cons.mp hmem with h' | h'
        · exact hcne h'.symm
        · exact ih hcs (Nat.le_of_succ_le_succ hlen) h'

/-- On text without `#`, the import pass finds nothing and is the identity
(including on the state), for any recursion, fuel and state. -/
theorem scanImports_no_hash
    (recur : PState → List Char → Option (List Char × PState)) (fs : FS)
    (dir : List Char) :
    ∀ (f : Nat) (st : PState) {s : List Char}, '#' ∉ s →
      scanImports recur fs dir f st s = some (s, st) := by
  intro f
  induction f with
  | zero => intro st s _; rfl
  | succ f ih =>
    intro st s hs
    cases s with
    | nil => rfl
    | cons c cs =>
      have hcne : c ≠ '#' := fun h => hs (h ▸ List.mem_cons_self c cs)
      have hm : matchImportAt (c :: cs) = none := by
        have : litP "#moj_import".toList (c :: cs) = none := by
          show litP ('#' :: "moj_import".toList) (c :: cs) = none
          simp only [litP, if_neg hcne]
        simp only [matchImportAt, this, Option.none_bind]
      simp only [scanImports, hm]
      rw [ih st (fun h => hs (List.mem_cons_of_mem c h))]
      rfl

/-- The precision strip only ever deletes characters. -/
theorem stripPrecisionF_subset :
    ∀ (f : Nat) {s : List Char} {a : Char}, a ∈ stripPrecisionF f s → a ∈ s := by
  intro f
  induction f with
  | zero => intro s a h; exact h
  | succ f ih =>
    intro s a h
    cases s with
    | nil => exact h
    | cons c cs =>
      simp only [stripPrecisionF] at h
      cases hm : matchPrecisionAt (c :: cs) with
      | some rest =>
        rw [hm] at h
        exact (matchPrecisionAt_suffix hm).1.subset (ih h)
      | none =>
        rw [hm] at h
        rcases List.mem_cons.mp h with h' | h'
        · exact h' ▸ List.mem_cons_self c cs
        · exact List.mem_cons_of_mem c (ih h')

/-- Every character of `str(n)` is a decimal digit. -/
theorem natCharsAux_digits :
    ∀ (f n : Nat) {c : Char}, c ∈ natCharsAux f n → c.isDigit = true := by
  intro f
  induction f with
  | zero => intro n c h; simp [natCharsAux] at h
  | succ f ih =>
    intro n c h
    simp only [natCharsAux] at h
    split at h
    · have hn : n < 10 := by assumption
      rw [List.mem_singleton.mp h]
      interval_cases n <;> decide
    · rcases List.mem_append.mp h with h' | h'
      · exact ih _ h'
      · have hm : n % 10 < 10 := Nat.mod_lt _ (by norm_num)
        rw [List.mem_singleton.mp h']
        set m := n % 10 with hmdef
        interval_cases m <;> decide

/-- Every character of `natChars n` is a decimal digit. -/
theorem natChars_digits {n : Nat} {c : Char} (h : c ∈ natChars n) :
    c.isDigit = true :=
  natCharsAux_digits _ _ h

/-- The binding pass introduces no `#`: its replacement text is made of
`#`-free literals, decimal digits and word characters from the match. -/
theorem addBindingsF_no_hash :
    ∀ (f k : Nat) {s : List Char}, '#' ∉ s → '#' ∉ (addBindingsF f k s).1 := by
  intro f
  induction f with
  | zero => intro k s hs; exact hs
  | succ f ih =>
    intro k s hs
    cases s with
    | nil => simp [addBindingsF]
    | cons c cs =>
      simp only [addBindingsF]
      cases hm : matchLayoutAt (c :: cs) with
      | some nr =>
        have hspec := matchLayoutAt_spec hm
        intro hmem
        rcases List.mem_append.mp hmem with h' | h'
        · rcases List.mem_append.mp h' with h'' | h''
          · rcases List.mem_append.mp h'' with h3 | h3
            · rcases List.mem_append.mp h3 with h4 | h4
              · revert h4; decide
              · exact absurd (natChars_digits h4) (by decide)
            · revert h3; decide
          · have := hspec.2.2 _ h''
            revert this; decide
        · exact ih (k + 1) (fun hh => hs (hspec.1.subset hh)) h'
      | none =>
        intro hmem
        rcases List.mem_cons.mp hmem with h' | h'
        · exact hs (h' ▸ List.mem_cons_self c cs)
        · exact ih k (fun hh => hs (List.mem_cons_of_mem c hh)) h'

/-- The sampler pass introduces no `#`. -/
theorem samplerF_no_hash :
    ∀ (f : Nat) {s : List Char}, '#' ∉ s → '#' ∉ samplerF f s := by
  intro f
  induction f with
  | zero => intro s hs; exact hs
  | succ f ih =>
    intro s hs
    cases s with
    | nil => simp [samplerF]
    | cons c cs =>
      simp only [samplerF]
      cases hm : matchSamplerAt (c :: cs) with
      | some nr =>
        have hspec := matchSamplerAt_spec hm
        intro hmem
        rcases List.mem_append.mp hmem with h' | h'
        · rcases List.mem_append.mp h' with h'' | h''
          · rcases List.mem_append.mp h'' with h3 | h3
            · revert h3; decide
            · have := hspec.2.2 _ h3
              revert this; decide
          · revert h''; decide
        · exact ih (fun hh => hs (hspec.1.subset hh)) h'
      | none =>
        intro hmem
        rcases List.mem_cons.mp hmem with h' | h'
        · exact hs (h' ▸ List.mem_cons_self c cs)
        · exact ih (fun hh => hs (List.mem_cons_of_mem c hh)) h'

/-- A pattern starting with `#` cannot occur in `#`-free text. -/
theorem countSub_hash_zero {p : List Char} :
    ∀ {s : List Char}, '#' ∉ s → countSub ('#' :: p) s = 0 := by
  intro s
  induction s with
  | nil => intro _; rfl
  | cons c cs ih =>
    intro hs
    have hcne : c ≠ '#' := fun h => hs (h ▸ List.mem_cons_self c cs)
    have : litP ('#' :: p) (c :: cs) = none := by
      simp only [litP, if_neg hcne]
    simp only [countSub, this]
    simpa using ih (fun h => hs (List.mem_cons_of_mem c h))

/-- C5 (amended): for every input in which each `#` character begins a
`#version <digits>` directive (regex `#version\s+\d+`), the string returned by
`preprocess` contains zero occurrences of `#version` — indeed no `#` at all.
The unamended claim quantified over *all* inputs and all include-root states;
`c5_counterexample` shows a bare `#version` (no version number) survives, so
the input discipline `hashOk` is required. -/
theorem c5_no_version_in_output (fs : FS) (dir : List Char) (f : Nat)
    (st : PState) (s out : List Char) (st' : PState)
    (hok : hashOk s = true)
    (hrun : preprocess fs dir (f + 1) st s = some (out, st')) :
    countSub "#version".toList out = 0 := by
  have h1 : '#' ∉ stripVersion s :=
    stripVersionF_no_hash s.length hok (Nat.le_refl _)
  simp only [preprocess, preprocessMojImports] at hrun
  rw [scanImports_no_hash _ fs dir _ _ h1, Option.some_bind] at hrun
  have hout : out = samplerRewrite
      (addBindings (PState.mk [] st.bindingCounter).bindingCounter
        (stripPrecision (stripVersion s))).1 := by
    have := congrArg (fun r => Option.map Prod.fst r) hrun
    simpa using this.symm
  have h2 : '#' ∉ stripPrecision (stripVersion s) :=
    fun h => h1 (stripPrecisionF_subset _ h)
  have h3 : '#' ∉ (addBindings (PState.mk [] st.bindingCounter).bindingCounter
      (stripPrecision (stripVersion s))).1 :=
    addBindingsF_no_hash _ _ h2
  have h4 : '#' ∉ out := by
    rw [hout]
    exact samplerF_no_hash _ h3
  show countSub ('#' :: "version".toList) out = 0
  exact countSub_hash_zero h4

/-- Witness for C5 at a well-formed shader whose only `#` heads its
`#version 150` directive. -/
theorem c5_witness :
    countSub "#version".toList "\nvoid f();".toList = 0 :=
  c5_no_version_in_output fsEmpty "inc".toList 0 ⟨[], 0⟩
    "#version 150\nvoid f();".toList "\nvoid f();".toList ⟨[], 0⟩ rfl rfl

/-! ### C1: a cyclic import never terminates (the include-set reset defeats
the cycle check, so the recursion burns arbitrary stack depth) -/

/-- A chain of three `Option.bind`s is `none` once the innermost value is. -/
theorem bind3_none {α β γ δ : Type} (x : Option α) (g1 : α → Option β)
    (g2 : β → Option γ) (g3 : γ → Option δ) (h : x = none) :
    ((x.bind g1).bind g2).bind g3 = none := by
  rw [h]
  rfl

/-- One step of the cycle from `a`: preprocessing `a` at depth `f + 1` fails
whenever preprocessing `b` at depth `f` does. -/
theorem cycle_a_step (f : Nat) (st : PState)
    (hB : preprocess fsCyc "inc".toList f
        ⟨["inc/b".toList], st.bindingCounter⟩ srcCycB = none) :
    preprocess fsCyc "inc".toList (f + 1) st srcCycA = none :=
  bind3_none
    (preprocess fsCyc "inc".toList f ⟨["inc/b".toList], st.bindingCounter⟩
      srcCycB) _ _ _ hB

/-- One step of the cycle from `b`. -/
theorem cycle_b_step (f : Nat) (st : PState)
    (hA : preprocess fsCyc "inc".toList f
        ⟨["inc/a".toList], st.bindingCounter⟩ srcCycA = none) :
    preprocess fsCyc "inc".toList (f + 1) st srcCycB = none :=
  bind3_none
    (preprocess fsCyc "inc".toList f ⟨["inc/a".toList], st.bindingCounter⟩
      srcCycA) _ _ _ hA

/-- Simultaneous induction: no recursion depth suffices for either member of
the cycle. -/
theorem cycle_none : ∀ f : Nat,
    (∀ st, preprocess fsCyc "inc".toList f st srcCycA = none)
    ∧ (∀ st, preprocess fsCyc "inc".toList f st srcCycB = none) := by
  intro f
  induction f with
  | zero => exact ⟨fun _ => rfl, fun _ => rfl⟩
  | succ f ih =>
    exact ⟨fun st => cycle_a_step f st (ih.2 _),
           fun st => cycle_b_step f st (ih.1 _)⟩

/-- C1: contrary to the claim (and the spec's intent), preprocessing a
cyclic import pair does **not** terminate with an "already included" marker: because
`preprocess_moj_imports` re-executes `self.included_files = set()` on every
recursive entry, the membership test at line 47 never fires, and the mutual
recursion `a → b → a → …` exhausts any recursion depth — in the embedding the
result is `none` for *every* fuel value (in Python, a `RecursionError`). -/
theorem c1_cycle_never_terminates (f : Nat) (st : PState) :
    preprocess fsCyc "inc".toList f st srcCycA = none :=
  (cycle_none f).1 st

/-! ### C7: missing and unreadable imports degrade to comments -/

/-- Absorb a `FileR` case split under two binds when the scrutinee is known to
be `absent`. -/
theorem fileR_bind2_absent (x : FileR)
    (mA : Option (List Char × PState))
    (mE mO : List Char → Option (List Char × PState))
    (g2 g3 : List Char × PState → Option (List Char × PState))
    (h : x = FileR.absent) :
    (((match x with
       | FileR.absent => mA
       | FileR.readError m => mE m
       | FileR.ok c => mO c).bind g2).bind g3)
      = (mA.bind g2).bind g3 := by
  rw [h]

/-- Absorb a `FileR` case split under two binds when the scrutinee is known to
be a read error. -/
theorem fileR_bind2_readError (x : FileR) (msg : List Char)
    (mA : Option (List Char × PState))
    (mE mO : List Char → Option (List Char × PState))
    (g2 g3 : List Char × PState → Option (List Char × PState))
    (h : x = FileR.readError msg) :
    (((match x with
       | FileR.absent => mA
       | FileR.readError m => mE m
       | FileR.ok c => mO c).bind g2).bind g3)
      = ((mE msg).bind g2).bind g3 := by
  rw [h]

/-- C7: `preprocess` never propagates a failure for a missing or an
unreadable import.  For `#moj_import <minecraft:fog.glsl>`: (i) if the path does
not exist under the include root, the call returns normally and its output is
exactly the `// Missing import: minecraft:fog.glsl` comment line; (ii) if
reading the file raises, the call still returns normally (`some`) for *every*
error message; and (iii) for a concrete representative message the output is
exactly the `// Error importing minecraft:fog.glsl: <message>` comment line,
with the path recorded in the include set. -/
theorem c7_import_failures_degrade_to_comments :
    (∀ (fs : FS) (dir : List Char) (f : Nat) (st : PState),
      fs (dir ++ '/' :: "fog.glsl".toList) = FileR.absent →
      preprocess fs dir (f + 1) st "#moj_import <minecraft:fog.glsl>".toList
        = some ("// Missing import: minecraft:fog.glsl\n".toList,
            ⟨[], st.bindingCounter⟩))
    ∧ (∀ (fs : FS) (dir : List Char) (f : Nat) (st : PState) (msg : List Char),
      fs (dir ++ '/' :: "fog.glsl".toList) = FileR.readError msg →
      ∃ r, preprocess fs dir (f + 1) st
          "#moj_import <minecraft:fog.glsl>".toList = some r)
    ∧ (∀ (fs : FS) (dir : List Char) (f : Nat) (st : PState),
      fs (dir ++ '/' :: "fog.glsl".toList)
          = FileR.readError "Permission denied".toList →
      preprocess fs dir (f + 1) st "#moj_import <minecraft:fog.glsl>".toList
        = some ("// Error importing minecraft:fog.glsl: Permission denied\n".toList,
            ⟨[dir ++ '/' :: "fog.glsl".toList], st.bindingCounter⟩)) := by
  refine ⟨fun fs dir f st h => ?_, fun fs dir f st msg h => ?_,
    fun fs dir f st h => ?_⟩
  · exact Eq.trans (fileR_bind2_absent _ _ _ _ _ _ h) rfl
  · exact ⟨_, Eq.trans (fileR_bind2_readError _ _ _ _ _ _ _ h) rfl⟩
  · exact Eq.trans (fileR_bind2_readError _ _ _ _ _ _ _ h) rfl

/-- A file system whose every read raises (for the C7 witness). -/
def fsErr : FS := fun _ => FileR.readError "Permission denied".toList

/-- Witness for C7: the missing-import case under the empty file system and
the read-failure case under the always-erroring file system. -/
theorem c7_witness :
    preprocess fsEmpty "inc".toList 1 ⟨[], 0⟩
        "#moj_import <minecraft:fog.glsl>".toList
      = some ("// Missing import: minecraft:fog.glsl\n".toList, ⟨[], 0⟩)
    ∧ preprocess fsErr "inc".toList 1 ⟨[], 0⟩
        "#moj_import <minecraft:fog.glsl>".toList
      = some ("// Error importing minecraft:fog.glsl: Permission denied\n".toList,
          ⟨["inc/fog.glsl".toList], 0⟩) :=
  ⟨c7_import_failures_degrade_to_comments.1 fsEmpty "inc".toList 0 ⟨[], 0⟩ rfl,
   c7_import_failures_degrade_to_comments.2.2 fsErr "inc".toList 0 ⟨[], 0⟩ rfl⟩

/-! ### C6: binding indices are 0, 1, 2, … in assignment order

To talk about "the indices written into the output" we instrument the pipeline
with a ghost trace: `addBindingsTrF`, `replaceImportTr`, `scanImportsTr` and
`preprocessTr` are the same functions as their un-suffixed counterparts
(`preprocessTr_erase` proves it) except that they additionally return the list
of binding indices in the order `add_binding` assigned them. -/

/-- Pass 4 with a ghost trace of the assigned indices. -/
def addBindingsTrF : Nat → Nat → List Char → List Char × Nat × List Nat
  | 0, k, s => (s, k, [])
  | _ + 1, k, [] => ([], k, [])
  | f + 1, k, c :: cs =>
    match matchLayoutAt (c :: cs) with
    | some (name, rest) =>
      let r := addBindingsTrF f (k + 1) rest
      ("layout(std140, binding=".toList ++ natChars k ++ ") uniform ".toList
        ++ name ++ r.1, r.2.1, k :: r.2.2)
    | none =>
      let r := addBindingsTrF f k cs
      (c :: r.1, r.2.1, r.2.2)

/-- `replace_import` with a ghost trace. -/
def replaceImportTr
    (recur : PState → List Char → Option (List Char × PState × List Nat))
    (fs : FS) (includeDir : List Char) (st : PState) (tok : List Char) :
    Option (List Char × PState × List Nat) :=
  if startsMinecraft tok then
    let fullPath := includeDir ++ '/' :: stripMinecraft tok
    if fullPath ∈ st.includedFiles then
      some ("// Already included: ".toList ++ tok ++ ['\n'], st, [])
    else
      match fs fullPath with
      | FileR.absent =>
        some ("// Missing import: ".toList ++ tok ++ ['\n'], st, [])
      | FileR.readError msg =>
        some ("// Error importing ".toList ++ tok ++ ": ".toList ++ msg ++ ['\n'],
          { st with includedFiles := fullPath :: st.includedFiles }, [])
      | FileR.ok content =>
        (recur { st with includedFiles := fullPath :: st.includedFiles }
            content).bind fun r =>
          some ("// Import: ".toList ++ tok ++ '\n' :: (r.1 ++ ['\n']), r.2)
  else
    some ("// Unknown import: ".toList ++ tok ++ ['\n'], st, [])

/-- The import scan with a ghost trace (traces concatenate in scan order). -/
def scanImportsTr
    (recur : PState → List Char → Option (List Char × PState × List Nat))
    (fs : FS) (dir : List Char) :
    Nat → PState → List Char → Option (List Char × PState × List Nat)
  | 0, st, s => some (s, st, [])
  | _ + 1, st, [] => some ([], st, [])
  | f + 1, st, c :: cs =>
    match matchImportAt (c :: cs) with
    | some (tok, rest) =>
      (replaceImportTr recur fs dir st tok).bind fun r =>
      (scanImportsTr recur fs dir f r.2.1 rest).bind fun r2 =>
      some (r.1 ++ r2.1, r2.2.1, r.2.2 ++ r2.2.2)
    | none =>
      (scanImportsTr recur fs dir f st cs).bind fun r =>
      some (c :: r.1, r.2)

/-- The full pipeline with a ghost trace: indices assigned during import
expansion come first (depth-first), then those of the top-level binding pass. -/
def preprocessTr (fs : FS) (dir : List Char) :
    Nat → PState → List Char → Option (List Char × PState × List Nat)
  | 0, _, _ => none
  | f + 1, st, src =>
    let s1 := stripVersion src
    (scanImportsTr (fun st' s' => preprocessTr fs dir f st' s') fs dir
        s1.length { st with includedFiles := [] } s1).bind fun r =>
      let s3 := stripPrecision r.1
      let p := addBindingsTrF s3.length r.2.1.bindingCounter s3
      some (samplerRewrite p.1, { r.2.1 with bindingCounter := p.2.1 },
        r.2.2 ++ p.2.2)

/-- A sequence of `preprocess` calls on one instance, with the concatenated
trace of all assigned binding indices. -/
def runSeqTr (fs : FS) (dir : List Char) (fuel : Nat) :
    PState → List (List Char) → Option (List (List Char) × PState × List Nat)
  | st, [] => some ([], st, [])
  | st, s :: rest =>
    (preprocessTr fs dir fuel st s).bind fun r =>
    (runSeqTr fs dir fuel r.2.1 rest).bind fun r2 =>
    some (r.1 :: r2.1, r2.2.1, r.2.2 ++ r2.2.2)

/-- Concatenation of consecutive index ranges. -/
theorem range'_append_one (k m n : Nat) :
    List.range' k m ++ List.range' (k + m) n = List.range' k (m + n) := by
  have h := List.range'_append k m n 1
  rw [one_mul, Nat.add_comm n m] at h
  exact h

/-- The binding pass assigns exactly the indices `k, k+1, …` in order and
leaves the counter past the last one. -/
theorem addBindingsTrF_spec :
    ∀ (f k : Nat) (s : List Char), ∃ n,
      (addBindingsTrF f k s).2.2 = List.range' k n
      ∧ (addBindingsTrF f k s).2.1 = k + n := by
  intro f
  induction f with
  | zero => intro k s; exact ⟨0, rfl, rfl⟩
  | succ f ih =>
    intro k s
    cases s with
    | nil => exact ⟨0, rfl, rfl⟩
    | cons c cs =>
      cases hm : matchLayoutAt (c :: cs) with
      | some nr =>
        obtain ⟨nm, rest⟩ := nr
        obtain ⟨n, h1, h2⟩ := ih (k + 1) rest
        refine ⟨n + 1, ?_, ?_⟩
        · simp only [addBindingsTrF, hm, h1, List.range'_succ]
        · simp only [addBindingsTrF, hm, h2]
          omega
      | none =>
        obtain ⟨n, h1, h2⟩ := ih k cs
        exact ⟨n, by simp only [addBindingsTrF, hm, h1],
          by simp only [addBindingsTrF, hm, h2]⟩

/-- Property of a (recursive) preprocessing call: on success, the indices it
assigns are the consecutive range starting at the incoming counter, and the
counter advances past them. -/
def RecurSpec
    (recur : PState → List Char → Option (List Char × PState × List Nat)) :
    Prop :=
  ∀ st s out st' tr, recur st s = some (out, st', tr) →
    ∃ n, tr = List.range' st.bindingCounter n
      ∧ st'.bindingCounter = st.bindingCounter + n

/-- `replace_import` satisfies the consecutive-range property whenever the
recursive call does: the placeholder branches assign nothing, the expansion
branch inherits the nested call's range. -/
theorem replaceImportTr_spec
    {recur : PState → List Char → Option (List Char × PState × List Nat)}
    (hrec : RecurSpec recur) (fs : FS) (dir : List Char) (st : PState)
    (tok : List Char) (out : List Char) (st' : PState) (tr : List Nat)
    (h : replaceImportTr recur fs dir st tok = some (out, st', tr)) :
    ∃ n, tr = List.range' st.bindingCounter n
      ∧ st'.bindingCounter = st.bindingCounter + n := by
  simp only [replaceImportTr] at h
  by_cases h1 : startsMinecraft tok = true
  · rw [if_pos h1] at h
    by_cases h2 : dir ++ '/' :: stripMinecraft tok ∈ st.includedFiles
    · rw [if_pos h2] at h
      simp only [Option.some.injEq, Prod.mk.injEq] at h
      exact ⟨0, h.2.2.symm, by rw [← h.2.1]; simp⟩
    · rw [if_neg h2] at h
      cases hfs : fs (dir ++ '/' :: stripMinecraft tok) with
      | absent =>
        simp only [hfs] at h
        simp only [Option.some.injEq, Prod.mk.injEq] at h
        exact ⟨0, h.2.2.symm, by rw [← h.2.1]; simp⟩
      | readError msg =>
        simp only [hfs] at h
        simp only [Option.some.injEq, Prod.mk.injEq] at h
        exact ⟨0, h.2.2.symm, by rw [← h.2.1]; simp⟩
      | ok content =>
        simp only [hfs] at h
        cases hr : recur
            { st with includedFiles :=
                (dir ++ '/' :: stripMinecraft tok) :: st.includedFiles }
            content with
        | none => rw [hr, Option.none_bind] at h; exact absurd h (by simp)
        | some r =>
          obtain ⟨rOut, rSt, rTr⟩ := r
          rw [hr, Option.some_bind] at h
          simp only [Option.some.injEq, Prod.mk.injEq] at h
          obtain ⟨n, hn1, hn2⟩ := hrec _ _ _ _ _ hr
          exact ⟨n, by rw [← h.2.2]; exact hn1, by rw [← h.2.1]; exact hn2⟩
  · rw [if_neg h1] at h
    simp only [Option.some.injEq, Prod.mk.injEq] at h
    exact ⟨0, h.2.2.symm, by rw [← h.2.1]; simp⟩

/-- The import scan satisfies the consecutive-range property whenever the
recursive call does. -/
theorem scanImportsTr_spec
    {recur : PState → List Char → Option (List Char × PState × List Nat)}
    (hrec : RecurSpec recur) (fs : FS) (dir : List Char) :
    ∀ (f : Nat) (st : PState) (s out : List Char) (st' : PState) (tr : List Nat),
      scanImportsTr recur fs dir f st s = some (out, st', tr) →
      ∃ n, tr = List.range' st.bindingCounter n
        ∧ st'.bindingCounter = st.bindingCounter + n := by
  intro f
  induction f with
  | zero =>
    intro st s out st' tr h
    simp only [scanImportsTr, Option.some.injEq, Prod.mk.injEq] at h
    exact ⟨0, h.2.2.symm, by rw [← h.2.1]; simp⟩
  | succ f ih =>
    intro st s out st' tr h
    cases s with
    | nil =>
      simp only [scanImportsTr, Option.some.injEq, Prod.mk.injEq] at h
      exact ⟨0, h.2.2.symm, by rw [← h.2.1]; simp⟩
    | cons c cs =>
      cases hm : matchImportAt (c :: cs) with
      | some pr =>
        obtain ⟨tok, rest⟩ := pr
        simp only [scanImportsTr, hm] at h
        cases hrep : replaceImportTr recur fs dir st tok with
        | none => rw [hrep] at h; exact absurd h (by simp)
        | some r =>
          rw [hrep, Option.some_bind] at h
          cases hscan : scanImportsTr recur fs dir f r.2.1 rest with
          | none => rw [hscan] at h; exact absurd h (by simp)
          | some r2 =>
            rw [hscan, Option.some_bind] at h
            simp only [Option.some.injEq, Prod.mk.injEq] at h
            obtain ⟨n1, ha1, ha2⟩ :=
              replaceImportTr_spec hrec fs dir st tok r.1 r.2.1 r.2.2 (by
                rw [hrep])
            obtain ⟨n2, hb1, hb2⟩ := ih r.2.1 rest r2.1 r2.2.1 r2.2.2 (by
              rw [hscan])
            refine ⟨n1 + n2, ?_, ?_⟩
            · rw [← h.2.2, ha1, hb1, ha2, range'_append_one]
            · rw [← h.2.1, hb2, ha2, Nat.add_assoc]
      | none =>
        simp only [scanImportsTr, hm] at h
        cases hscan : scanImportsTr recur fs dir f st cs with
        | none => rw [hscan] at h; exact absurd h (by simp)
        | some r =>
          obtain ⟨rOut, rSt, rTr⟩ := r
          rw [hscan, Option.some_bind] at h
          simp only [Option.some.injEq, Prod.mk.injEq] at h
          obtain ⟨n, hb1, hb2⟩ := ih st cs rOut rSt rTr hscan
          exact ⟨n, by rw [← h.2.2]; exact hb1, by rw [← h.2.1]; exact hb2⟩

/-- The full pipeline satisfies the consecutive-range property at every fuel. -/
theorem preprocessTr_spec (fs : FS) (dir : List Char) :
    ∀ f : Nat, RecurSpec (preprocessTr fs dir f) := by
  intro f
  induction f with
  | zero => intro st s out st' tr h; exact absurd h (by simp [preprocessTr])
  | succ f ih =>
    intro st s out st' tr h
    simp only [preprocessTr] at h
    cases hscan : scanImportsTr (fun st' s' => preprocessTr fs dir f st' s')
        fs dir (stripVersion s).length { st with includedFiles := [] }
        (stripVersion s) with
    | none => rw [hscan] at h; exact absurd h (by simp)
    | some r =>
      rw [hscan, Option.some_bind] at h
      simp only [Option.some.injEq, Prod.mk.injEq] at h
      obtain ⟨n1, ha1, ha2⟩ := scanImportsTr_spec ih fs dir _ _ _ r.1 r.2.1
        r.2.2 (by rw [hscan])
      obtain ⟨n2, hb1, hb2⟩ := addBindingsTrF_spec
        (stripPrecision r.1).length r.2.1.bindingCounter (stripPrecision r.1)
      refine ⟨n1 + n2, ?_, ?_⟩
      · rw [← h.2.2, ha1, hb1, ha2]
        show List.range' st.bindingCounter n1
            ++ List.range' (st.bindingCounter + n1) n2 = _
        rw [range'_append_one]
      · rw [← h.2.1]
        show (addBindingsTrF (stripPrecision r.1).length r.2.1.bindingCounter
          (stripPrecision r.1)).2.1 = _
        rw [hb2, ha2, Nat.add_assoc]

/-- Across a whole sequence of calls on one instance, the traces concatenate
into one consecutive range continuing from the incoming counter. -/
theorem runSeqTr_spec (fs : FS) (dir : List Char) (fuel : Nat) :
    ∀ (srcs : List (List Char)) (st : PState) (outs : List (List Char))
      (st' : PState) (tr : List Nat),
      runSeqTr fs dir fuel st srcs = some (outs, st', tr) →
      ∃ n, tr = List.range' st.bindingCounter n
        ∧ st'.bindingCounter = st.bindingCounter + n := by
  intro srcs
  induction srcs with
  | nil =>
    intro st outs st' tr h
    simp only [runSeqTr, Option.some.injEq, Prod.mk.injEq] at h
    exact ⟨0, h.2.2.symm, by rw [← h.2.1]; simp⟩
  | cons s rest ih =>
    intro st outs st' tr h
    simp only [runSeqTr] at h
    cases hp : preprocessTr fs dir fuel st s with
    | none => rw [hp] at h; exact absurd h (by simp)
    | some r =>
      rw [hp, Option.some_bind] at h
      cases hr : runSeqTr fs dir fuel r.2.1 rest with
      | none => rw [hr] at h; exact absurd h (by simp)
      | some r2 =>
        rw [hr, Option.some_bind] at h
        simp only [Option.some.injEq, Prod.mk.injEq] at h
        obtain ⟨n1, ha1, ha2⟩ := preprocessTr_spec fs dir fuel st s r.1 r.2.1
          r.2.2 (by rw [hp])
        obtain ⟨n2, hb1, hb2⟩ := ih r.2.1 r2.1 r2.2.1 r2.2.2 (by rw [hr])
        refine ⟨n1 + n2, ?_, ?_⟩
        · rw [← h.2.2, ha1, hb1, ha2, range'_append_one]
        · rw [← h.2.1, hb2, ha2, Nat.add_assoc]

/-- C6: across any sequence of `preprocess` calls on one fresh instance, the
binding indices written into the outputs — the ghost trace, in assignment
order — are exactly `0, 1, 2, …`: the trace equals `List.range` of its length
(so indices start at 0, are strictly increasing by one, and no index is ever
repeated or reassigned), and the final counter sits just past the last index,
regardless of how many files or imports were processed. -/
theorem c6_binding_indices_are_range (fs : FS) (dir : List Char) (fuel : Nat)
    (srcs outs : List (List Char)) (st' : PState) (tr : List Nat)
    (h : runSeqTr fs dir fuel ⟨[], 0⟩ srcs = some (outs, st', tr)) :
    tr = List.range tr.length ∧ st'.bindingCounter = tr.length := by
  obtain ⟨n, h1, h2⟩ := runSeqTr_spec fs dir fuel srcs ⟨[], 0⟩ outs st' tr h
  have h0 : (⟨[], 0⟩ : PState).bindingCounter = 0 := rfl
  rw [h0] at h1 h2
  have hlen : tr.length = n := by rw [h1]; exact List.length_range' 0 1 n
  constructor
  · rw [List.range_eq_range', hlen, h1]
  · rw [hlen, h2, Nat.zero_add]

/-- Witness for C6: two files through one instance, tracing `[0, 1]`. -/
theorem c6_witness :
    ([0, 1] : List Nat) = List.range ([0, 1] : List Nat).length
    ∧ (⟨[], 2⟩ : PState).bindingCounter = ([0, 1] : List Nat).length :=
  c6_binding_indices_are_range fsEmpty "inc".toList 1
    ["layout(std140) uniform A\n".toList, "layout(std140) uniform B\n".toList]
    ["layout(std140, binding=0) uniform A\n".toList,
     "layout(std140, binding=1) uniform B\n".toList]
    ⟨[], 2⟩ [0, 1] rfl

/-! ### The instrumented pipeline erases to the original one -/

/-- Drop the ghost trace. -/
def eraseTr (r : Option (List Char × PState × List Nat)) :
    Option (List Char × PState) :=
  r.map fun x => (x.1, x.2.1)

/-- `addBindingsTrF` is `addBindingsF` plus a ghost trace. -/
theorem addBindingsTrF_erase :
    ∀ (f k : Nat) (s : List Char),
      addBindingsF f k s = ((addBindingsTrF f k s).1, (addBindingsTrF f k s).2.1) := by
  intro f
  induction f with
  | zero => intro k s; rfl
  | succ f ih =>
    intro k s
    cases s with
    | nil => rfl
    | cons c cs =>
      cases hm : matchLayoutAt (c :: cs) with
      | some nr =>
        obtain ⟨nm, rest⟩ := nr
        simp only [addBindingsF, addBindingsTrF, hm, ih (k + 1) rest]
      | none =>
        simp only [addBindingsF, addBindingsTrF, hm, ih k cs]

/-- `replaceImportTr` is `replaceImport` plus a ghost trace, given that the
recursive calls are related the same way. -/
theorem replaceImportTr_erase
    {recur : PState → List Char → Option (List Char × PState)}
    {recurT : PState → List Char → Option (List Char × PState × List Nat)}
    (hrel : ∀ st s, recur st s = eraseTr (recurT st s)) (fs : FS)
    (dir : List Char) (st : PState) (tok : List Char) :
    replaceImport recur fs dir st tok
      = eraseTr (replaceImportTr recurT fs dir st tok) := by
  simp only [replaceImport, replaceImportTr]
  by_cases h1 : startsMinecraft tok = true
  · rw [if_pos h1, if_pos h1]
    by_cases h2 : dir ++ '/' :: stripMinecraft tok ∈ st.includedFiles
    · rw [if_pos h2, if_pos h2]; rfl
    · rw [if_neg h2, if_neg h2]
      cases hfs : fs (dir ++ '/' :: stripMinecraft tok) with
      | absent => rfl
      | readError msg => rfl
      | ok content =>
        simp only [hrel]
        cases hr : recurT
            { st with includedFiles :=
                (dir ++ '/' :: stripMinecraft tok) :: st.includedFiles }
            content with
        | none => rfl
        | some r => rfl
  · rw [if_neg h1, if_neg h1]; rfl

/-- `scanImportsTr` is `scanImports` plus a ghost trace. -/
theorem scanImportsTr_erase
    {recur : PState → List Char → Option (List Char × PState)}
    {recurT : PState → List Char → Option (List Char × PState × List Nat)}
    (hrel : ∀ st s, recur st s = eraseTr (recurT st s)) (fs : FS)
    (dir : List Char) :
    ∀ (f : Nat) (st : PState) (s : List Char),
      scanImports recur fs dir f st s
        = eraseTr (scanImportsTr recurT fs dir f st s) := by
  intro f
  induction f with
  | zero => intro st s; rfl
  | succ f ih =>
    intro st s
    cases s with
    | nil => rfl
    | cons c cs =>
      cases hm : matchImportAt (c :: cs) with
      | some pr =>
        obtain ⟨tok, rest⟩ := pr
        simp only [scanImports, scanImportsTr, hm]
        rw [replaceImportTr_erase hrel]
        cases hrep : replaceImportTr recurT fs dir st tok with
        | none => rfl
        | some r =>
          simp only [eraseTr, Option.map_some', Option.some_bind]
          rw [ih]
          cases hscan : scanImportsTr recurT fs dir f r.2.1 rest with
          | none => rfl
          | some r2 => rfl
      | none =>
        simp only [scanImports, scanImportsTr, hm]
        rw [ih]
        cases hscan : scanImportsTr recurT fs dir f st cs with
        | none => rfl
        | some r => rfl

/-- `preprocessTr` is exactly `preprocess` with a ghost trace of the binding
indices: dropping the trace recovers the original pipeline verbatim. -/
theorem preprocessTr_erase (fs : FS) (dir : List Char) :
    ∀ (f : Nat) (st : PState) (s : List Char),
      preprocess fs dir f st s = eraseTr (preprocessTr fs dir f st s) := by
  intro f
  induction f with
  | zero => intro st s; rfl
  | succ f ih =>
    intro st s
    simp only [preprocess, preprocessMojImports, preprocessTr]
    rw [scanImportsTr_erase ih]
    cases hscan : scanImportsTr (fun st' s' => preprocessTr fs dir f st' s')
        fs dir (stripVersion s).length { st with includedFiles := [] }
        (stripVersion s) with
    | none => rfl
    | some r =>
      simp only [eraseTr, Option.map_some', Option.some_bind, addBindings,
        addBindingsTrF_erase]
